import Mathlib

/-!
Verification of the FileNet CPE log analyzer core
(`src/filenet_cpe_log_analyzer.py`).

Strings are modelled as `List Char`.  The Python regular expressions used by
the analyzer are embedded as deterministic scanners; every use in the source
is of a rigid shape (fixed-width groups, or runs of a character class that
is followed by a pattern element disjoint from that class), so backtracking
never changes the outcome and a maximal-munch scanner is faithful.
Character classes (`\w`, `\s`, `\d`, ...) are modelled over ASCII, which
covers every character class test the analyzer performs on its own data.
Time instants are modelled as microseconds on a linear timeline (`Int`),
which is exactly the arithmetic `datetime`/`timedelta` implement.
-/

/-- Character class: ASCII decimal digit (Python `\d` on ASCII input). -/
def isDigitC (c : Char) : Bool := 48 ≤ c.toNat && c.toNat ≤ 57

/-- Character class of the `\b[A-Z0-9]{8,}\b` identifier rule. -/
def isUpperIdC (c : Char) : Bool :=
  (65 ≤ c.toNat && c.toNat ≤ 90) || isDigitC c

/-- Character class: hexadecimal digit `[0-9a-fA-F]`. -/
def isHexC (c : Char) : Bool :=
  isDigitC c || (97 ≤ c.toNat && c.toNat ≤ 102) || (65 ≤ c.toNat && c.toNat ≤ 70)

/-- Python `\s` (ASCII): space, tab, newline, vertical tab, form feed, CR. -/
def isPySpaceC (c : Char) : Bool := c.toNat == 32 || (9 ≤ c.toNat && c.toNat ≤ 13)

/-- Python `\w` (ASCII): letters, digits and underscore. -/
def isWordC (c : Char) : Bool :=
  (65 ≤ c.toNat && c.toNat ≤ 90) || (97 ≤ c.toNat && c.toNat ≤ 122) ||
  (48 ≤ c.toNat && c.toNat ≤ 57) || c.toNat == 95

/-- Unit letters of the relative-time grammar `[wdhms]`. -/
def isUnitC (c : Char) : Bool :=
  c.toNat == 119 || c.toNat == 100 || c.toNat == 104 || c.toNat == 109 || c.toNat == 115

/-- ASCII lower-casing of one character (Python `str.lower` on ASCII). -/
def charLowerC (c : Char) : Char :=
  if 65 ≤ c.toNat && c.toNat ≤ 90 then Char.ofNat (c.toNat + 32) else c

/-- ASCII upper-casing of one character (Python `str.upper` on ASCII). -/
def charUpperC (c : Char) : Char :=
  if 97 ≤ c.toNat && c.toNat ≤ 122 then Char.ofNat (c.toNat - 32) else c

/-- Numeric value of a decimal digit character. -/
def charVal (c : Char) : Nat := c.toNat - 48

/-- Value of a decimal digit string (Python `int` on a digit group). -/
def digitsVal (ds : List Char) : Nat := ds.foldl (fun a c => a * 10 + charVal c) 0

/-- Python `str.strip`: drop leading and trailing whitespace. -/
def pyStrip (s : List Char) : List Char :=
  (((s.dropWhile isPySpaceC).reverse).dropWhile isPySpaceC).reverse

/-- Worker for `wsCollapse`; the flag records whether the previous character
was whitespace (already emitted as one space). -/
def wsGo : Bool → List Char → List Char
  | _, [] => []
  | prevSp, c :: rest =>
    if isPySpaceC c then
      if prevSp then wsGo true rest else ' ' :: wsGo true rest
    else c :: wsGo false rest

/-- Embedding of `re.sub(r"\s+", " ", m)`: collapse whitespace runs. -/
def wsCollapse (s : List Char) : List Char := wsGo false s

/-- Emit one maximal class run: replaced when it started at a word boundary,
reached the minimum length and ends at a word boundary, kept verbatim
otherwise.  This is `re.sub` for `\b C{k,} \b` with `C` a subset of the word
characters: no position inside a run is a word boundary, so the only match
candidates are whole maximal runs. -/
def runEmit (repl : List Char) (minLen : Nat) (boundary : Bool) (run : List Char)
    (endsOk : Bool) : List Char :=
  if boundary && minLen ≤ run.length && endsOk then repl else run

/-- Scanner for `re.sub` of a bounded class run; `boundary` says whether the
current run started at a word boundary of the original string. -/
def runGo (cls : Char → Bool) (repl : List Char) (minLen : Nat) :
    Bool → List Char → List Char → List Char
  | boundary, run, [] => runEmit repl minLen boundary run true
  | boundary, run, c :: rest =>
    if cls c then runGo cls repl minLen boundary (run ++ [c]) rest
    else
      runEmit repl minLen boundary run (!isWordC c) ++
        c :: runGo cls repl minLen (!isWordC c) [] rest

/-- Embedding of `re.sub(r"\b C{minLen,} \b", repl, s)` for a class `C` of
word characters. -/
def runSub (cls : Char → Bool) (repl : List Char) (minLen : Nat) (s : List Char) :
    List Char :=
  runGo cls repl minLen true [] s

/-- Consume exactly `n` hexadecimal digits. -/
def hexRunN : Nat → List Char → Option (List Char)
  | 0, s => some s
  | _ + 1, [] => none
  | n + 1, c :: s => if isHexC c then hexRunN n s else none

/-- Consume one expected character. -/
def expectChar (c : Char) : List Char → Option (List Char)
  | [] => none
  | d :: s => if d = c then some s else none

/-- Sequencing of partial consumers of the input. -/
def bindO (f : List Char → Option (List Char)) : Option (List Char) → Option (List Char)
  | none => none
  | some s => f s

/-- Match the 8-4-4-4-12 hexadecimal body of a GUID at the head of the
string, returning the remainder. -/
def guidTail (s : List Char) : Option (List Char) :=
  hexRunN 8 s |> bindO (expectChar '-') |> bindO (hexRunN 4) |>
    bindO (expectChar '-') |> bindO (hexRunN 4) |> bindO (expectChar '-') |>
    bindO (hexRunN 4) |> bindO (expectChar '-') |> bindO (hexRunN 12)

/-- Does the GUID pattern (including its trailing `\b`) match at the head? -/
def guidMatchAt (s : List Char) : Bool :=
  match guidTail s with
  | none => false
  | some [] => true
  | some (c :: _) => !isWordC c

/-- Scanner for the GUID substitution; `skip` counts characters of an
already-replaced match still to be consumed (the GUID body has 36
characters; all groups are fixed width, so the regex admits no
backtracking). -/
def guidGo : Nat → Bool → List Char → List Char
  | _, _, [] => []
  | skip + 1, _, c :: rest => guidGo skip (!isWordC c) rest
  | 0, boundary, c :: rest =>
    if boundary && guidMatchAt (c :: rest) then
      "{GUID}".data ++ guidGo 35 (!isWordC c) rest
    else c :: guidGo 0 (!isWordC c) rest

/-- Embedding of the GUID placeholder substitution of `normalize_message`. -/
def guidSub (s : List Char) : List Char := guidGo 0 true s

/-- Placeholder-substitution and whitespace-normalization pipeline of
`normalize_message` (steps before the rule list). -/
def normSub (s : List Char) : List Char :=
  pyStrip (wsCollapse (runSub isDigitC ("{NUM}".data) 6
    (runSub isUpperIdC ("{ID}".data) 8 (guidSub s))))

/-- Does `s` start with `sub`? -/
def startsWithL : List Char → List Char → Bool
  | _, [] => true
  | [], _ :: _ => false
  | a :: as, b :: bs => a == b && startsWithL as bs

/-- Python substring test `sub in s`. -/
def hasSub (sub : List Char) : List Char → Bool
  | [] => sub == ([] : List Char)
  | c :: rest => startsWithL (c :: rest) sub || hasSub sub rest

def wsiLoginPat : List Char := "[WSIAuthenticatorImpl] login exception".data
def wsiPat : List Char := "WSIAuthenticatorImpl".data
def nameCollPat : List Char := "MethodName: checkNameCollision".data
def notUniquePat : List Char := "E_NOT_UNIQUE".data
def fnrce0043Pat : List Char := "FNRCE0043E".data
def getContentPat : List Char := "MethodName: getContent".data
def fnrce0066Pat : List Char := "FNRCE0066E".data
def unexpectedPat : List Char := "E_UNEXPECTED_EXCEPTION".data
def ttlPat : List Char := "TTLStreamReaper".data

def famWsi : List Char := "WSIAuthenticatorImpl login exception (authentication failures)".data
def famNameColl : List Char :=
  "checkNameCollision / FNRCE0043E (E_NOT_UNIQUE) – Name already exists".data
def famGetContent : List Char := "getContent failures (content retrieval)".data
def famUnexpected : List Char := "FNRCE0066E (E_UNEXPECTED_EXCEPTION) – unexpected error".data
def famTtl : List Char := "TTLStreamReaper scheduling issue".data

/-- Embedding of `normalize_message`: placeholder substitution, whitespace
collapse, ordered substring rules, truncation fallback. -/
def normalize_message (s : List Char) : List Char :=
  let m := normSub s
  if hasSub wsiLoginPat m || hasSub wsiPat m then famWsi
  else if hasSub nameCollPat m || hasSub notUniquePat m || hasSub fnrce0043Pat m then
    famNameColl
  else if hasSub getContentPat m then famGetContent
  else if hasSub fnrce0066Pat m || hasSub unexpectedPat m then famUnexpected
  else if hasSub ttlPat m then famTtl
  else if 140 < m.length then m.take 140 ++ "…".data else m

/-- Does any of the five ordered substring rules of `normalize_message`
fire on the normalized text? -/
def ruleHit (m : List Char) : Bool :=
  (hasSub wsiLoginPat m || hasSub wsiPat m) ||
  (hasSub nameCollPat m || hasSub notUniquePat m || hasSub fnrce0043Pat m) ||
  hasSub getContentPat m ||
  (hasSub fnrce0066Pat m || hasSub unexpectedPat m) ||
  hasSub ttlPat m

/-- Scanner state for the token pattern `(\d+)\s*([wdhms])`: outside any
candidate, inside the digit group, or inside the optional whitespace. -/
inductive TokSt
  | scan
  | dig (ds : List Char)
  | sp (ds : List Char)

/-- Scanner for `patt.finditer(expr)` with `patt = (\d+)\s*([wdhms])`.
Both `\d+` and `\s*` are followed by pattern elements disjoint from their
classes, so the regex is rigid and every failed candidate fails again at
every position inside it; skipping to the failing character is therefore
faithful to the left-to-right scan of `finditer`. -/
def tokGo : TokSt → List Char → List (Nat × Char)
  | _, [] => []
  | st, c :: rest =>
    match st with
    | .scan => if isDigitC c then tokGo (.dig [c]) rest else tokGo .scan rest
    | .dig ds =>
      if isDigitC c then tokGo (.dig (ds ++ [c])) rest
      else if isUnitC c then (digitsVal ds, c) :: tokGo .scan rest
      else if isPySpaceC c then tokGo (.sp ds) rest
      else tokGo .scan rest
    | .sp ds =>
      if isPySpaceC c then tokGo (.sp ds) rest
      else if isUnitC c then (digitsVal ds, c) :: tokGo .scan rest
      else if isDigitC c then tokGo (.dig [c]) rest
      else tokGo .scan rest

/-- All `(value, unit)` tokens of a relative-time expression, in order. -/
def tokScan (s : List Char) : List (Nat × Char) := tokGo .scan s

/-- Seconds denoted by one unit letter (`timedelta` is exact arithmetic on
seconds for these units). -/
def unitSecs (u : Char) : Nat :=
  if u = 'w' then 604800
  else if u = 'd' then 86400
  else if u = 'h' then 3600
  else if u = 'm' then 60
  else if u = 's' then 1
  else 0

/-- Total seconds of a token list (the summation loop of
`parse_relative_delta`). -/
def sumTok (ts : List (Nat × Char)) : Nat :=
  (ts.map (fun p => p.1 * unitSecs p.2)).sum

/-- Lower-cased, stripped form of an expression (`expr.strip().lower()`). -/
def canonExpr (e : List Char) : List Char := (pyStrip e).map charLowerC

/-- Embedding of `parse_relative_delta` for a present expression; the
result is the total duration in seconds. -/
def parse_relative_delta (expr : List Char) : Except (List Char) Nat :=
  if canonExpr expr = "now".data ∨ canonExpr expr = "0".data ∨
      canonExpr expr = "0h".data ∨ canonExpr expr = "0m".data ∨
      canonExpr expr = "0s".data then .ok 0
  else if tokScan (canonExpr expr) = [] then
    .error ("Invalid relative time expression".data)
  else .ok (sumTok (tokScan (canonExpr expr)))

/-- Decimal digit character of a value below ten. -/
def digitChar : Nat → Char
  | 0 => '0' | 1 => '1' | 2 => '2' | 3 => '3' | 4 => '4'
  | 5 => '5' | 6 => '6' | 7 => '7' | 8 => '8' | _ => '9'

/-- Fuelled decimal rendering of a natural number (most significant digit
first); any fuel above the value suffices. -/
def natDigitsGo : Nat → Nat → List Char
  | 0, _ => []
  | fuel + 1, v =>
    if v < 10 then [digitChar v]
    else natDigitsGo fuel (v / 10) ++ [digitChar (v % 10)]

/-- Decimal digit string of a natural number. -/
def natDigits (v : Nat) : List Char := natDigitsGo (v + 1) v

/-- Concrete text of a token sequence, `<digits><unit>` concatenated with no
separator (the expression grammar of the time-window resolver). -/
def render : List (Nat × Char) → List Char
  | [] => []
  | p :: ts => natDigits p.1 ++ p.2 :: render ts

/-- Declarative reading of the claim "the input contains a
`<digits><unit>` token" (the token pattern `(\d+)\s*([wdhms])`): stated as
an explicit decomposition, to be compared with the scanner `tokScan`
embedded from the source. -/
def HasTokenSpec (s : List Char) : Prop :=
  ∃ pre ds ws u post, s = pre ++ ds ++ ws ++ u :: post ∧ ds ≠ [] ∧
    (∀ c ∈ ds, isDigitC c = true) ∧ (∀ c ∈ ws, isPySpaceC c = true) ∧ isUnitC u = true

/-- Is the canonical expression one of the zero literals of
`parse_relative_delta`? -/
def isZeroLit (e : List Char) : Prop :=
  e = "now".data ∨ e = "0".data ∨ e = "0h".data ∨ e = "0m".data ∨ e = "0s".data

/-- Consume exactly `n` decimal digits, returning them and the remainder. -/
def takeDigitsN : Nat → List Char → Option (List Char × List Char)
  | 0, s => some ([], s)
  | _ + 1, [] => none
  | n + 1, c :: s =>
    if isDigitC c then
      match takeDigitsN n s with
      | some (ds, r) => some (c :: ds, r)
      | none => none
    else none

/-- Pipeline state while matching the fixed-width timestamp group: the
digit groups collected so far and the remaining input. -/
def grpDigits (n : Nat) : Option (List (List Char) × List Char) →
    Option (List (List Char) × List Char)
  | none => none
  | some (gs, s) =>
    match takeDigitsN n s with
    | none => none
    | some (ds, r) => some (gs ++ [ds], r)

/-- Consume one expected separator character in the group pipeline. -/
def grpChar (c : Char) : Option (List (List Char) × List Char) →
    Option (List (List Char) × List Char)
  | none => none
  | some (gs, s) =>
    match expectChar c s with
    | none => none
    | some r => some (gs, r)

/-- Digit groups of the timestamp shape
`\d{4}-\d{2}-\d{2}T\d{2}:\d{2}:\d{2}\.\d{3}` at the head of the input, and
the remainder after it. -/
def tsGroups (s : List Char) : Option (List (List Char) × List Char) :=
  grpDigits 4 (some ([], s)) |> grpChar '-' |> grpDigits 2 |> grpChar '-' |>
    grpDigits 2 |> grpChar 'T' |> grpDigits 2 |> grpChar ':' |> grpDigits 2 |>
    grpChar ':' |> grpDigits 2 |> grpChar '.' |> grpDigits 3

/-- Match the fixed-width timestamp group at the head of a line, returning
the matched text and the remainder. -/
def tsShape (s : List Char) : Option (List Char × List Char) :=
  match tsGroups s with
  | some ([a, b, c, d, e, f, g], r) =>
    some (a ++ '-' :: b ++ '-' :: c ++ 'T' :: d ++ ':' :: e ++ ':' :: f ++ '.' :: g, r)
  | _ => none

/-- Consume `\s+`: at least one whitespace character, maximal run. -/
def sp1 : List Char → Option (List Char)
  | [] => none
  | c :: r => if isPySpaceC c then some (r.dropWhile isPySpaceC) else none

/-- Consume `\S+`: at least one non-whitespace character, maximal run. -/
def nsp1 : List Char → Option (List Char)
  | [] => none
  | c :: r =>
    if isPySpaceC c then none else some (r.dropWhile (fun d => !isPySpaceC d))

/-- Consume `(\w+)`: a maximal nonempty word-character run, returned. -/
def word1 : List Char → Option (List Char × List Char)
  | [] => none
  | c :: r =>
    if isWordC c then some (c :: r.takeWhile isWordC, r.dropWhile isWordC)
    else none

/-- Embedding of `LOG_LINE_RE.match(line)` for a line without a newline:
returns the `ts`, `level` and `msg` groups.  Every `\s+`/`\S+`/`\w+` in the
pattern is followed by an element disjoint from its class and all other
groups are fixed width, so the regex is rigid and maximal munch is exact. -/
def lineMatch (line : List Char) : Option (List Char × List Char × List Char) :=
  match tsShape line with
  | none => none
  | some (ts, r0) =>
    match sp1 r0 |> bindO nsp1 |> bindO sp1 |> bindO nsp1 |> bindO sp1 |>
        bindO nsp1 |> bindO sp1 |> bindO (expectChar '-') |> bindO sp1 with
    | none => none
    | some r9 =>
      match word1 r9 with
      | none => none
      | some (lvl, r10) =>
        match sp1 r10 with
        | none => none
        | some r11 => some (ts, lvl, r11)

/-- Gregorian leap-year rule used by `datetime`. -/
def isLeapYear (y : Nat) : Bool := (y % 4 == 0 && y % 100 != 0) || y % 400 == 0

/-- Length of a month, as validated by the `datetime` constructor. -/
def daysInMonth (y m : Nat) : Nat :=
  if m == 2 then (if isLeapYear y then 29 else 28)
  else if m == 4 || m == 6 || m == 9 || m == 11 then 30
  else 31

/-- Days since 1970-01-01 of a civil date (standard era arithmetic). -/
def daysFromCivil (y m d : Nat) : Int :=
  let y' : Int := if m ≤ 2 then (y : Int) - 1 else (y : Int)
  let era : Int := y' / 400
  let yoe : Int := y' - era * 400
  let mp : Int := if 2 < m then (m : Int) - 3 else (m : Int) + 9
  let doy : Int := (153 * mp + 2) / 5 + (d : Int) - 1
  let doe : Int := yoe * 365 + yoe / 4 - yoe / 100 + doy
  era * 146097 + doe - 719468

/-- Embedding of `datetime.strptime(ts_str, "%Y-%m-%dT%H:%M:%S.%f")`:
validates the shape and the calendar ranges and returns the instant in
microseconds on the linear timeline; `none` models `ValueError`. -/
def parseTsMicros (ts : List Char) : Option Int :=
  match tsGroups ts with
  | some ([ys, mos, dds, hhs, mis, sss, fs], []) =>
    let y := digitsVal ys
    let mo := digitsVal mos
    let d := digitsVal dds
    let hh := digitsVal hhs
    let mi := digitsVal mis
    let sec := digitsVal sss
    let ms := digitsVal fs
    if 1 ≤ y ∧ 1 ≤ mo ∧ mo ≤ 12 ∧ 1 ≤ d ∧ d ≤ daysInMonth y mo ∧
        hh ≤ 23 ∧ mi ≤ 59 ∧ sec ≤ 59 then
      some (daysFromCivil y mo d * 86400000000 +
        ((hh : Int) * 3600000000 + (mi : Int) * 60000000 +
          (sec : Int) * 1000000 + (ms : Int) * 1000))
    else none
  | _ => none

/-- One parsed WARN/ERROR log record (immutable). -/
structure LogRecord where
  timestamp : List Char
  level : List Char
  message : List Char
  source_file : List Char
deriving DecidableEq

/-- Does the record's instant fall before the window start? -/
def beforeWindow (sinceDt : Option Int) (t : Int) : Bool :=
  match sinceDt with
  | none => false
  | some s => decide (t < s)

/-- Does the record's instant fall after the window end? -/
def afterWindow (untilDt : Option Int) (t : Int) : Bool :=
  match untilDt with
  | none => false
  | some u => decide (u < t)

/-- Per-line body of the `parse_logs` loop: regex match, level filter,
timestamp validation, time-window filter, record construction. -/
def processLine (sinceDt untilDt : Option Int) (fname line : List Char) :
    Option LogRecord :=
  match lineMatch line with
  | none => none
  | some (ts, lvl, msg) =>
    let level := lvl.map charUpperC
    if level = "ERROR".data ∨ level = "WARN".data then
      match parseTsMicros ts with
      | none => none
      | some t =>
        if beforeWindow sinceDt t then none
        else if afterWindow untilDt t then none
        else some ⟨ts, level, pyStrip msg, fname⟩
    else none

/-- Contents of the resolved file set: each file has a name and either its
lines or `none` when the file vanished before it could be opened
(`FileNotFoundError`, caught and skipped by the source). -/
abbrev FileSet : Type := List (List Char × Option (List (List Char)))

/-- Record extraction over the file set, in file order then line order. -/
def readFiles : FileSet → Option Int → Option Int → List LogRecord
  | [], _, _ => []
  | (_, none) :: rest, s, u => readFiles rest s u
  | (nm, some lines) :: rest, s, u =>
    lines.filterMap (processLine s u nm) ++ readFiles rest s u

/-- Embedding of `parse_logs`: fatal error on an empty resolved file set,
otherwise the filtered records of every readable file. -/
def parse_logs (files : FileSet) (sinceDt untilDt : Option Int) :
    Except (List Char) (List LogRecord) :=
  match files with
  | [] => .error ("No log files".data)
  | f :: fs => .ok (readFiles (f :: fs) sinceDt untilDt)

/-- Time-window resolution of `main`: `until = now + parse(until_expr)`,
`since = now - parse(since_expr)` when `since_expr` is given and nonempty
(Python truthiness), fatal error when `since > until`.  Durations are
converted from seconds to microseconds on the linear timeline. -/
def resolveWindow (sinceExpr : Option (List Char)) (untilExpr : List Char)
    (now : Int) : Except (List Char) (Option Int × Int) :=
  match parse_relative_delta untilExpr with
  | .error e => .error e
  | .ok u =>
    let untilDt := now + (u : Int) * 1000000
    match sinceExpr with
    | none => .ok (none, untilDt)
    | some se =>
      if se = [] then .ok (none, untilDt)
      else
        match parse_relative_delta se with
        | .error e => .error e
        | .ok sv =>
          let sinceDt := now - (sv : Int) * 1000000
          if untilDt < sinceDt then
            .error ("Invalid time window: since > until".data)
          else .ok (some sinceDt, untilDt)

/-- Order of operations of `main` up to ingestion: resolve the window, then
read the logs. -/
def mainPipeline (sinceExpr : Option (List Char)) (untilExpr : List Char)
    (now : Int) (files : FileSet) : Except (List Char) (List LogRecord) :=
  match resolveWindow sinceExpr untilExpr now with
  | .error e => .error e
  | .ok (s, u) => parse_logs files s (some u)

/-- Family of a record (`normalize_message(r["message"])`). -/
def famOf (r : LogRecord) : List Char := normalize_message r.message

/-- Family of each record, in record order. -/
def famsOf (rows : List LogRecord) : List (List Char) := rows.map famOf

/-- Increment the count of family `g` in one grouping entry. -/
def bumpFam (g : List Char) (p : List Char × Nat) : List Char × Nat :=
  if p.1 = g then (p.1, p.2 + 1) else p

/-- Add one record's family to the grouping; Python's dict keeps insertion
order, so an unseen family is appended at the end. -/
def addFam (acc : List (List Char × Nat)) (g : List Char) : List (List Char × Nat) :=
  if acc.any (fun p => p.1 == g) then acc.map (bumpFam g) else acc ++ [(g, 1)]

/-- Family/count pairs in first-encounter order (the `families` dict of
`main`, reduced to group sizes). -/
def famList (fs : List (List Char)) : List (List Char × Nat) := fs.foldl addFam []

/-- Insert into a count-descending list; an element moves ahead of a
later-inserted equal count, which makes the sort stable.  Python's
`list.sort(key=..., reverse=True)` is a stable sort by the same key, and a
stable sort's output is uniquely determined by (key desc, original
position asc), so this insertion sort computes the same list. -/
def insDesc (x : List Char × Nat) : List (List Char × Nat) → List (List Char × Nat)
  | [] => [x]
  | y :: ys => if y.2 ≤ x.2 then x :: y :: ys else y :: insDesc x ys

/-- Stable sort by count, descending. -/
def sortCountDesc : List (List Char × Nat) → List (List Char × Nat)
  | [] => []
  | x :: xs => insDesc x (sortCountDesc xs)

/-- The `summary` list of `main`: grouped counts sorted descending. -/
def summaryOf (rows : List LogRecord) : List (List Char × Nat) :=
  sortCountDesc (famList (famsOf rows))

/-- Distinct families in first-encounter order. -/
def famKeys (rows : List LogRecord) : List (List Char) :=
  (famList (famsOf rows)).map Prod.fst

/-- Position of the first occurrence of `x` (first-encounter rank). -/
def firstIdx (x : List Char) : List (List Char) → Nat
  | [] => 0
  | y :: ys => if y = x then 0 else firstIdx x ys + 1

/-- Does the timeseries loop's `parse_ts` succeed on this record? -/
def tsOk (r : LogRecord) : Bool := (parseTsMicros r.timestamp).isSome

/-- Daily bucket key of a record, `dt.strftime("%Y-%m-%d")`: on the
canonical timestamp text this is its date portion. -/
def dayKey (r : LogRecord) : List Char := r.timestamp.take 10

/-- Hourly bucket key, `dt.strftime("%Y-%m-%d %H:00")`. -/
def hourKey (r : LogRecord) : List Char :=
  r.timestamp.take 10 ++ (' ' :: (r.timestamp.drop 11).take 2) ++ ":00".data

/-- Overall daily counter (`daily[d]`), as a function of the bucket key. -/
def dailyCount (rows : List LogRecord) (k : List Char) : Nat :=
  rows.countP (fun r => tsOk r && (dayKey r == k))

/-- Overall hourly counter (`hourly[h]`). -/
def hourlyCount (rows : List LogRecord) (k : List Char) : Nat :=
  rows.countP (fun r => tsOk r && (hourKey r == k))

/-- Per-family daily counter (`fam_daily[fam][d]`). -/
def famDailyCount (rows : List LogRecord) (f k : List Char) : Nat :=
  rows.countP (fun r => (famOf r == f) && (tsOk r && (dayKey r == k)))

/-- Per-family hourly counter (`fam_hourly[fam][h]`). -/
def famHourlyCount (rows : List LogRecord) (f k : List Char) : Nat :=
  rows.countP (fun r => (famOf r == f) && (tsOk r && (hourKey r == k)))

/-- Repetition of a character list. -/
def repList : Nat → List Char → List Char
  | 0, _ => []
  | n + 1, l => l ++ repList n l

/-- Concrete message for the truncation analysis: 130 characters of
`"a "`, then an uppercase run cut in two by the 140-character limit. -/
def msgC2 : List Char := repList 65 ("a ".data) ++ "ABCDEFGHIJ".data ++ "kk".data

def goodLine : List Char :=
  "2024-01-15T10:30:00.123 host comp thread - ERROR Something failed".data

def infoLine : List Char :=
  "2024-01-15T10:30:00.123 host comp thread - INFO Something failed".data

def noSepLine : List Char :=
  "2024-01-15T10:30:00.123 host comp thread ERROR Something failed".data

def badTsLine : List Char :=
  "2024-13-15T10:30:00.123 host comp thread - ERROR x".data

def goodTs : List Char := "2024-01-15T10:30:00.123".data

def badTs : List Char := "2024-13-15T10:30:00.123".data

def recA : LogRecord := ⟨goodTs, "ERROR".data, "x E_NOT_UNIQUE y".data, "f".data⟩

def recB : LogRecord := ⟨goodTs, "WARN".data, "hello".data, "f".data⟩

def rows0 : List LogRecord := [recB, recA, recA]

deriving instance DecidableEq for Except

set_option maxRecDepth 40000

/-! ## Helper lemmas -/

theorem parse_logs_of_ne_nil (files : FileSet) (h : files ≠ []) (s u : Option Int) :
    parse_logs files s u = .ok (readFiles files s u) := by
  match files with
  | [] => exact absurd rfl h
  | f :: fs => rfl

theorem readFiles_skip_vanished (fs1 fs2 : FileSet) (nm : List Char) (s u : Option Int) :
    readFiles (fs1 ++ (nm, none) :: fs2) s u = readFiles (fs1 ++ fs2) s u := by
  induction fs1 with
  | nil => rfl
  | cons f fs1 ih =>
    match f with
    | (n, none) => simp [readFiles, ih]
    | (n, some lines) => simp [readFiles, ih]

/-! ## C1 -/

/-- C1: on any message whose placeholder-substituted, whitespace-collapsed
form contains one of the `checkNameCollision` / `E_NOT_UNIQUE` /
`FNRCE0043E` trigger substrings and does not fire the earlier
`WSIAuthenticatorImpl` rule, `normalize_message` returns exactly the name
collision family label. -/
theorem claim1_trigger_rule_after_subst (msg : List Char)
    (hw : (hasSub wsiLoginPat (normSub msg) || hasSub wsiPat (normSub msg)) = false)
    (ht : (hasSub nameCollPat (normSub msg) || hasSub notUniquePat (normSub msg) ||
      hasSub fnrce0043Pat (normSub msg)) = true) :
    normalize_message msg = famNameColl := by
  unfold normalize_message
  simp [hw, ht]

/-- C1 witness: a concrete message containing `E_NOT_UNIQUE` after
substitution, mapped to the family label by the theorem. -/
theorem claim1_trigger_rule_witness :
    (hasSub wsiLoginPat (normSub ("x E_NOT_UNIQUE y".data)) ||
        hasSub wsiPat (normSub ("x E_NOT_UNIQUE y".data))) = false
    ∧ normalize_message ("x E_NOT_UNIQUE y".data) = famNameColl :=
  ⟨by decide, claim1_trigger_rule_after_subst _ (by decide) (by decide)⟩

/-- C1 counterexample: the raw message `"FNRCE0043E"` contains the token
`FNRCE0043E`, yet `normalize_message` does not map it to the name collision
family label: the token is an uppercase alphanumeric word of length at
least 8, so the `{ID}` substitution erases it before the rules run and the
fallback returns `"{ID}"`. -/
theorem claim1_raw_token_counterexample :
    hasSub fnrce0043Pat ("FNRCE0043E".data) = true
    ∧ normalize_message ("FNRCE0043E".data) = "{ID}".data
    ∧ normalize_message ("FNRCE0043E".data) ≠ famNameColl := by
  refine ⟨by decide, by decide, ?_⟩
  decide

/-! ## C2 -/

/-- C2 (truncation part): when no substring rule fires on the normalized
text and that text is longer than 140 characters, `normalize_message`
returns its first 140 characters followed by the ellipsis character. -/
theorem claim2_truncation (msg : List Char)
    (hrule : ruleHit (normSub msg) = false)
    (hlen : 140 < (normSub msg).length) :
    normalize_message msg = (normSub msg).take 140 ++ "…".data := by
  rw [ruleHit] at hrule
  repeat rw [Bool.or_eq_false_iff] at hrule
  obtain ⟨⟨⟨⟨⟨h1a, h1b⟩, ⟨h2a, h2b⟩, h2c⟩, h3⟩, h4a, h4b⟩, h5⟩ := hrule
  unfold normalize_message
  simp [h1a, h1b, h2a, h2b, h2c, h3, h4a, h4b, h5, hlen]

/-- C2 witness: the truncation theorem applied to the concrete long
message `msgC2`. -/
theorem claim2_truncation_witness :
    ruleHit (normSub msgC2) = false ∧ 140 < (normSub msgC2).length
    ∧ normalize_message msgC2 = (normSub msgC2).take 140 ++ "…".data :=
  ⟨by decide, by decide, claim2_truncation msgC2 (by decide) (by decide)⟩

/-- C2 counterexample: `msgC2` satisfies the claim's hypotheses (no rule
fires, normalized length 142 > 140), yet `normalize_message` is not
idempotent on its output: the truncation cuts right after an uppercase run,
creating a word boundary, so the second pass replaces the run with `{ID}`. -/
theorem claim2_not_idempotent_counterexample :
    ruleHit (normSub msgC2) = false ∧ 140 < (normSub msgC2).length
    ∧ normalize_message (normalize_message msgC2) ≠ normalize_message msgC2 := by
  refine ⟨by decide, by decide, ?_⟩
  decide

/-! ## C5 -/

/-- C5: once both expressions resolve, `main` terminates with the invalid
time window error before any ingestion exactly when the resolved
`since` instant exceeds the resolved `until` instant (the error does not
depend on the file set), and otherwise proceeds to `parse_logs` with the
resolved window. -/
theorem claim5_window_check (se ue : List Char) (now : Int) (s u : Nat)
    (hs : parse_relative_delta se = .ok s) (hu : parse_relative_delta ue = .ok u)
    (files : FileSet) :
    mainPipeline (some se) ue now files =
      if now + (u : Int) * 1000000 < now - (s : Int) * 1000000 then
        .error ("Invalid time window: since > until".data)
      else
        parse_logs files (some (now - (s : Int) * 1000000))
          (some (now + (u : Int) * 1000000)) := by
  have hne : se ≠ [] := by
    intro h
    subst h
    rw [show parse_relative_delta [] =
      .error ("Invalid relative time expression".data) from by decide] at hs
    exact Except.noConfusion hs
  have hrw : resolveWindow (some se) ue now =
      if now + (u : Int) * 1000000 < now - (s : Int) * 1000000 then
        .error ("Invalid time window: since > until".data)
      else .ok (some (now - (s : Int) * 1000000), now + (u : Int) * 1000000) := by
    unfold resolveWindow
    simp only [hu, hs, if_neg hne]
  unfold mainPipeline
  rw [hrw]
  by_cases hlt : now + (u : Int) * 1000000 < now - (s : Int) * 1000000
  · simp [hlt]
  · simp [hlt]

/-- C5 witness: `--since 24h --until 0h` resolves and ingestion proceeds. -/
theorem claim5_window_witness :
    parse_relative_delta ("24h".data) = .ok 86400
    ∧ parse_relative_delta ("0h".data) = .ok 0
    ∧ mainPipeline (some ("24h".data)) ("0h".data) 0 [("f".data, some [])] =
      if (0 : Int) + (0 : Int) * 1000000 < 0 - (86400 : Int) * 1000000 then
        .error ("Invalid time window: since > until".data)
      else
        parse_logs [("f".data, some [])] (some (0 - (86400 : Int) * 1000000))
          (some ((0 : Int) + (0 : Int) * 1000000)) :=
  ⟨by decide, by decide,
    claim5_window_check ("24h".data) ("0h".data) 0 86400 0 (by decide) (by decide) _⟩

/-! ## C7 -/

/-- C7: a line whose shape matches the log pattern but whose timestamp text
is not a valid instant is silently dropped: it produces no record, removing
it from a file leaves the ingestion result unchanged, and ingestion still
returns an ok record list. -/
theorem claim7_bad_timestamp_skipped (line ts lvl msg : List Char)
    (hmatch : lineMatch line = some (ts, lvl, msg))
    (hts : parseTsMicros ts = none) :
    (∀ s u nm, processLine s u nm line = none)
    ∧ (∀ nm pre post rest s u,
        parse_logs ((nm, some (pre ++ line :: post)) :: rest) s u =
          parse_logs ((nm, some (pre ++ post)) :: rest) s u)
    ∧ (∀ nm pre post rest s u, ∃ rows,
        parse_logs ((nm, some (pre ++ line :: post)) :: rest) s u = .ok rows) := by
  have hnone : ∀ s u nm, processLine s u nm line = none := by
    intro s u nm
    unfold processLine
    simp only [hmatch]
    split
    · rw [hts]
    · rfl
  refine ⟨hnone, ?_, ?_⟩
  · intro nm pre post rest s u
    rw [parse_logs_of_ne_nil _ (by simp) s u, parse_logs_of_ne_nil _ (by simp) s u]
    simp [readFiles, List.filterMap_append, hnone]
  · intro nm pre post rest s u
    exact ⟨_, parse_logs_of_ne_nil _ (by simp) s u⟩

/-- C7 witness: the theorem applied to the concrete line with month 13. -/
theorem claim7_bad_timestamp_witness :
    lineMatch badTsLine = some (badTs, "ERROR".data, "x".data)
    ∧ parseTsMicros badTs = none
    ∧ processLine none none ("app.log".data) badTsLine = none :=
  ⟨by decide, by decide,
    (claim7_bad_timestamp_skipped badTsLine badTs ("ERROR".data) ("x".data)
      (by decide) (by decide)).1 none none ("app.log".data)⟩

/-! ## C8 -/

/-- C8: ingestion fails fatally on an empty resolved file set (before
reading anything, producing no records); on a nonempty file set a vanished
file is skipped without affecting the result, and ingestion always returns
an ok record list. -/
theorem claim8_file_set_handling :
    (∀ s u, parse_logs [] s u = .error ("No log files".data))
    ∧ (∀ fs1 fs2 nm s u, fs1 ++ fs2 ≠ ([] : FileSet) →
        parse_logs (fs1 ++ (nm, none) :: fs2) s u = parse_logs (fs1 ++ fs2) s u)
    ∧ (∀ files s u, files ≠ ([] : FileSet) → ∃ rows, parse_logs files s u = .ok rows) := by
  refine ⟨fun s u => rfl, ?_, ?_⟩
  · intro fs1 fs2 nm s u hne
    rw [parse_logs_of_ne_nil _ (by simp) s u, parse_logs_of_ne_nil _ hne s u,
      readFiles_skip_vanished]
  · intro files s u hne
    exact ⟨_, parse_logs_of_ne_nil _ hne s u⟩

/-- C8 witness: the three parts of the theorem at concrete file sets. -/
theorem claim8_file_set_witness :
    parse_logs [] none none = .error ("No log files".data)
    ∧ parse_logs [("a".data, some []), ("gone".data, none)] none none =
        parse_logs [("a".data, some [])] none none
    ∧ ∃ rows, parse_logs [("a".data, some [])] none none = .ok rows :=
  ⟨claim8_file_set_handling.1 none none,
    claim8_file_set_handling.2.1 [("a".data, some [])] [] ("gone".data) none none (by simp),
    claim8_file_set_handling.2.2 [("a".data, some [])] none none (by simp)⟩

/-! ## C6 -/

/-- C6: the sample line parses to an ERROR record with message
`"Something failed"`; any matching line whose upper-cased level is neither
`ERROR` nor `WARN` is rejected; the sample line without the `" - "`
separator is rejected. -/
theorem claim6_line_parsing :
    processLine none none ("app.log".data) goodLine =
      some ⟨goodTs, "ERROR".data, "Something failed".data, "app.log".data⟩
    ∧ (∀ s u nm line ts lvl msg, lineMatch line = some (ts, lvl, msg) →
        lvl.map charUpperC ≠ "ERROR".data → lvl.map charUpperC ≠ "WARN".data →
        processLine s u nm line = none)
    ∧ processLine none none ("app.log".data) noSepLine = none := by
  refine ⟨by decide, ?_, by decide⟩
  intro s u nm line ts lvl msg hmatch hne hnw
  unfold processLine
  rw [hmatch]
  simp [hne, hnw]

/-- C6 witness: the level filter of the theorem applied to the INFO line. -/
theorem claim6_line_parsing_witness :
    lineMatch infoLine = some (goodTs, "INFO".data, "Something failed".data)
    ∧ processLine none none ("app.log".data) infoLine = none :=
  ⟨by decide,
    claim6_line_parsing.2.1 none none ("app.log".data) infoLine goodTs
      ("INFO".data) ("Something failed".data) (by decide) (by decide) (by decide)⟩

/-! ## Grouping and summary lemmas (C4, C9) -/

theorem bumpFam_fst (g : List Char) (p : List Char × Nat) : (bumpFam g p).1 = p.1 := by
  unfold bumpFam
  split <;> rfl

theorem keys_map_bump (g : List Char) (A : List (List Char × Nat)) :
    (A.map (bumpFam g)).map Prod.fst = A.map Prod.fst := by
  rw [List.map_map]
  exact List.map_congr_left fun p _ => bumpFam_fst g p

theorem firstIdx_append_left (x : List Char) (l l' : List (List Char)) (h : x ∈ l) :
    firstIdx x (l ++ l') = firstIdx x l := by
  induction l with
  | nil => cases h
  | cons y ys ih =>
    by_cases hy : y = x
    · simp [firstIdx, hy]
    · have hx : x ∈ ys := by
        rcases List.mem_cons.mp h with h1 | h1
        · exact absurd h1.symm hy
        · exact h1
      simp [firstIdx, hy, ih hx]

theorem firstIdx_append_right (x : List Char) (l l' : List (List Char)) (h : x ∉ l) :
    firstIdx x (l ++ l') = l.length + firstIdx x l' := by
  induction l with
  | nil => simp
  | cons y ys ih =>
    have hy : ¬ y = x := by
      intro e
      exact h (by rw [e]; exact List.mem_cons_self x ys)
    have hys : x ∉ ys := fun hx => h (List.mem_cons_of_mem y hx)
    simp [firstIdx, hy, ih hys]
    omega

theorem firstIdx_lt_length (x : List Char) (l : List (List Char)) (h : x ∈ l) :
    firstIdx x l < l.length := by
  induction l with
  | nil => cases h
  | cons y ys ih =>
    by_cases hy : y = x
    · simp [firstIdx, hy]
    · have hx : x ∈ ys := by
        rcases List.mem_cons.mp h with h1 | h1
        · exact absurd h1.symm hy
        · exact h1
      simp only [firstIdx, hy, if_false, List.length_cons]
      exact Nat.succ_lt_succ (ih hx)

theorem famList_spec (fs : List (List Char)) :
    ((famList fs).map Prod.fst).Nodup
    ∧ (∀ f, f ∈ (famList fs).map Prod.fst ↔ f ∈ fs)
    ∧ (∀ p ∈ famList fs, p.2 = fs.count p.1)
    ∧ (famList fs).Pairwise (fun a b => firstIdx a.1 fs < firstIdx b.1 fs) := by
  induction fs using List.reverseRecOn with
  | nil => simp [famList]
  | append_singleton l g ih =>
    obtain ⟨ihN, ihM, ihC, ihP⟩ := ih
    have hfold : famList (l ++ [g]) = addFam (famList l) g := by
      unfold famList
      rw [List.foldl_append]
      rfl
    by_cases hg : g ∈ (famList l).map Prod.fst
    · -- the family was seen before: its count is bumped, keys are unchanged
      have hany : ((famList l).any fun p => p.1 == g) = true := by
        simp only [List.any_eq_true, beq_iff_eq]
        obtain ⟨p, hp, he⟩ := List.mem_map.mp hg
        exact ⟨p, hp, he⟩
      have haddf : famList (l ++ [g]) = (famList l).map (bumpFam g) := by
        rw [hfold]
        unfold addFam
        rw [hany]
        rfl
      have keysEq : (famList (l ++ [g])).map Prod.fst = (famList l).map Prod.fst := by
        rw [haddf, keys_map_bump]
      have hgl : g ∈ l := (ihM g).mp hg
      refine ⟨?_, ?_, ?_, ?_⟩
      · rw [keysEq]; exact ihN
      · intro f
        rw [keysEq, ihM f]
        constructor
        · intro h
          exact List.mem_append.mpr (Or.inl h)
        · intro h
          rcases List.mem_append.mp h with h | h
          · exact h
          · rw [List.mem_singleton.mp h]
            exact hgl
      · intro p hp
        rw [haddf] at hp
        obtain ⟨q, hq, he⟩ := List.mem_map.mp hp
        by_cases hqg : q.1 = g
        · have hb : p = (q.1, q.2 + 1) := by
            rw [← he]
            unfold bumpFam
            rw [if_pos hqg]
          rw [hb, List.count_append]
          have h1 : l.count q.1 = q.2 := (ihC q hq).symm
          have h2 : ([g]).count q.1 = 1 := by
            rw [hqg]
            simp
          simp only [h1, h2]
        · have hb : p = q := by
            rw [← he]
            unfold bumpFam
            rw [if_neg hqg]
          rw [hb, List.count_append]
          have h2 : ([g]).count q.1 = 0 := by
            apply List.count_eq_zero.mpr
            simp [hqg]
          rw [h2, ihC q hq]
          omega
      · rw [haddf, List.pairwise_map]
        apply List.Pairwise.imp_of_mem ?_ ihP
        intro a b ha hb hab
        have ha1 : a.1 ∈ l := (ihM a.1).mp (List.mem_map.mpr ⟨a, ha, rfl⟩)
        have hb1 : b.1 ∈ l := (ihM b.1).mp (List.mem_map.mpr ⟨b, hb, rfl⟩)
        rw [bumpFam_fst, bumpFam_fst, firstIdx_append_left a.1 l [g] ha1,
          firstIdx_append_left b.1 l [g] hb1]
        exact hab
    · -- a new family: appended at the end of the grouping
      have hany : ((famList l).any fun p => p.1 == g) = false := by
        rw [Bool.eq_false_iff]
        intro hc
        apply hg
        simp only [List.any_eq_true, beq_iff_eq] at hc
        obtain ⟨p, hp, he⟩ := hc
        exact List.mem_map.mpr ⟨p, hp, he⟩
      have haddf : famList (l ++ [g]) = famList l ++ [(g, 1)] := by
        rw [hfold]
        unfold addFam
        rw [hany]
        rfl
      have hgl : g ∉ l := fun h => hg ((ihM g).mpr h)
      refine ⟨?_, ?_, ?_, ?_⟩
      · rw [haddf, List.map_append]
        rw [List.nodup_append]
        refine ⟨ihN, by simp, ?_⟩
        intro a ha hb
        simp only [List.map_cons, List.map_nil, List.mem_singleton] at hb
        rw [hb] at ha
        exact hg ha
      · intro f
        rw [haddf, List.map_append]
        simp only [List.mem_append, List.mem_singleton, ihM f, List.map_cons,
          List.map_nil]
      · intro p hp
        rw [haddf] at hp
        rcases List.mem_append.mp hp with hp | hp
        · have hne : p.1 ≠ g := by
            intro e
            exact hg (e ▸ List.mem_map.mpr ⟨p, hp, rfl⟩)
          rw [List.count_append]
          have h2 : ([g]).count p.1 = 0 := by
            apply List.count_eq_zero.mpr
            simp [hne]
          rw [h2, ihC p hp]
          omega
        · rw [List.mem_singleton.mp hp]
          simp only [List.count_append]
          have h1 : l.count g = 0 := List.count_eq_zero.mpr hgl
          have h2 : ([g]).count g = 1 := by simp
          rw [h1, h2]
      · rw [haddf, List.pairwise_append]
        refine ⟨?_, by simp, ?_⟩
        · apply List.Pairwise.imp_of_mem ?_ ihP
          intro a b ha hb hab
          have ha1 : a.1 ∈ l := (ihM a.1).mp (List.mem_map.mpr ⟨a, ha, rfl⟩)
          have hb1 : b.1 ∈ l := (ihM b.1).mp (List.mem_map.mpr ⟨b, hb, rfl⟩)
          rw [firstIdx_append_left a.1 l [g] ha1, firstIdx_append_left b.1 l [g] hb1]
          exact hab
        · intro a ha b hb
          rw [List.mem_singleton.mp hb]
          have ha1 : a.1 ∈ l := (ihM a.1).mp (List.mem_map.mpr ⟨a, ha, rfl⟩)
          have h1 : firstIdx a.1 (l ++ [g]) = firstIdx a.1 l :=
            firstIdx_append_left a.1 l [g] ha1
          have h2 : firstIdx g (l ++ [g]) = l.length + firstIdx g [g] :=
            firstIdx_append_right g l [g] hgl
          have h3 : firstIdx g [g] = 0 := by simp [firstIdx]
          show firstIdx a.1 (l ++ [g]) < firstIdx g (l ++ [g])
          rw [h1, h2, h3]
          exact Nat.lt_of_lt_of_le (firstIdx_lt_length a.1 l ha1) (by omega)

theorem insDesc_perm (x : List Char × Nat) (l : List (List Char × Nat)) :
    (insDesc x l).Perm (x :: l) := by
  induction l with
  | nil => exact List.Perm.refl _
  | cons y ys ih =>
    unfold insDesc
    split
    · exact List.Perm.refl _
    · exact (List.Perm.cons y ih).trans (List.Perm.swap x y ys)

theorem sortCountDesc_perm (l : List (List Char × Nat)) :
    (sortCountDesc l).Perm l := by
  induction l with
  | nil => exact List.Perm.refl _
  | cons x xs ih =>
    unfold sortCountDesc
    exact (insDesc_perm x (sortCountDesc xs)).trans (List.Perm.cons x ih)

theorem insDesc_pairwise (t : List Char × Nat → Nat) (x : List Char × Nat)
    (M : List (List Char × Nat))
    (hM : M.Pairwise (fun a b => b.2 < a.2 ∨ (a.2 = b.2 ∧ t a < t b)))
    (hx : ∀ y ∈ M, t x < t y) :
    (insDesc x M).Pairwise (fun a b => b.2 < a.2 ∨ (a.2 = b.2 ∧ t a < t b)) := by
  induction M with
  | nil => simp [insDesc]
  | cons y ys ih =>
    rw [List.pairwise_cons] at hM
    obtain ⟨hy, hys⟩ := hM
    unfold insDesc
    split
    next hle =>
      refine List.Pairwise.cons ?_ (List.Pairwise.cons hy hys)
      intro z hz
      rcases List.mem_cons.mp hz with rfl | hz'
      · rcases Nat.lt_or_ge z.2 x.2 with h | h
        · exact Or.inl h
        · exact Or.inr ⟨Nat.le_antisymm h hle, hx z (List.mem_cons_self z ys)⟩
      · rcases hy z hz' with h | ⟨heq, _⟩
        · exact Or.inl (Nat.lt_of_lt_of_le h hle)
        · rcases Nat.lt_or_ge z.2 x.2 with h2 | h2
          · exact Or.inl h2
          · have hzx : z.2 ≤ x.2 := by omega
            exact Or.inr ⟨Nat.le_antisymm h2 hzx,
              hx z (List.mem_cons_of_mem y hz')⟩
    next hgt =>
      have hx2 : x.2 < y.2 := Nat.lt_of_not_le hgt
      refine List.Pairwise.cons ?_ (ih hys fun z hz => hx z (List.mem_cons_of_mem y hz))
      intro z hz
      rcases List.mem_cons.mp ((insDesc_perm x ys).mem_iff.mp hz) with rfl | hz'
      · exact Or.inl hx2
      · exact hy z hz'

theorem sortCountDesc_pairwise (t : List Char × Nat → Nat) (l : List (List Char × Nat))
    (hl : l.Pairwise (fun a b => t a < t b)) :
    (sortCountDesc l).Pairwise (fun a b => b.2 < a.2 ∨ (a.2 = b.2 ∧ t a < t b)) := by
  induction l with
  | nil => simp [sortCountDesc]
  | cons x xs ih =>
    rw [List.pairwise_cons] at hl
    obtain ⟨hx, hxs⟩ := hl
    unfold sortCountDesc
    refine insDesc_pairwise t x _ (ih hxs) ?_
    intro y hy
    exact hx y ((sortCountDesc_perm xs).mem_iff.mp hy)

/-! ## C4 -/

/-- C4: the summary has exactly one entry per distinct family (its keys are
distinct and are exactly the observed families), each entry carries that
family's record count, and the list is sorted by count descending with
equal counts ordered by the family's first encounter in the record
stream. -/
theorem claim4_summary_spec (rows : List LogRecord) :
    ((summaryOf rows).map Prod.fst).Nodup
    ∧ (∀ f, f ∈ (summaryOf rows).map Prod.fst ↔ f ∈ famsOf rows)
    ∧ (∀ p ∈ summaryOf rows, p.2 = (famsOf rows).count p.1)
    ∧ (summaryOf rows).Pairwise (fun a b =>
        b.2 < a.2 ∨ (a.2 = b.2 ∧
          firstIdx a.1 (famsOf rows) < firstIdx b.1 (famsOf rows))) := by
  obtain ⟨hN, hM, hC, hP⟩ := famList_spec (famsOf rows)
  have hperm : (summaryOf rows).Perm (famList (famsOf rows)) := sortCountDesc_perm _
  refine ⟨?_, ?_, ?_, ?_⟩
  · exact ((hperm.map Prod.fst).nodup_iff).mpr hN
  · intro f
    rw [← hM f]
    exact (hperm.map Prod.fst).mem_iff
  · intro p hp
    exact hC p (hperm.mem_iff.mp hp)
  · exact sortCountDesc_pairwise (fun p => firstIdx p.1 (famsOf rows)) _ hP

/-- C4 witness: the summary properties at a concrete record stream with two
families. -/
theorem claim4_summary_witness :
    ((summaryOf rows0).map Prod.fst).Nodup
    ∧ (∀ p ∈ summaryOf rows0, p.2 = (famsOf rows0).count p.1) :=
  ⟨(claim4_summary_spec rows0).1, (claim4_summary_spec rows0).2.2.1⟩

/-! ## C9 -/

theorem sum_map_add (keys : List (List Char)) (A B : List Char → Nat) :
    (keys.map fun f => A f + B f).sum = (keys.map A).sum + (keys.map B).sum := by
  induction keys with
  | nil => rfl
  | cons k ks ih =>
    simp only [List.map_cons, List.sum_cons, ih]
    omega

theorem sum_indicator_one (keys : List (List Char)) (x : List Char)
    (hnd : keys.Nodup) (hx : x ∈ keys) :
    (keys.map fun f => if (x == f) = true then (1 : Nat) else 0).sum = 1 := by
  induction keys with
  | nil => cases hx
  | cons k ks ih =>
    rw [List.nodup_cons] at hnd
    obtain ⟨hk, hks⟩ := hnd
    rcases List.mem_cons.mp hx with rfl | hx'
    · have h0 : (ks.map fun f => if (x == f) = true then (1 : Nat) else 0).sum = 0 := by
        apply List.sum_eq_zero
        intro n hn
        obtain ⟨f, hf, he⟩ := List.mem_map.mp hn
        have : (x == f) = false := beq_eq_false_iff_ne.mpr (fun e => hk (e ▸ hf))
        rw [this] at he
        simpa using he.symm
      simp only [List.map_cons, List.sum_cons]
      rw [h0]
      simp
    · have hxk : (x == k) = false := beq_eq_false_iff_ne.mpr (by
        intro e
        rw [e] at hx'
        exact hk hx')
      simp only [List.map_cons, List.sum_cons, hxk]
      simpa using ih hks hx'

theorem countP_fiber {α : Type} (fam : α → List Char) (P : α → Bool)
    (keys : List (List Char)) (l : List α)
    (hnd : keys.Nodup) (hcov : ∀ r ∈ l, fam r ∈ keys) :
    (keys.map fun f => l.countP fun r => (fam r == f) && P r).sum = l.countP P := by
  induction l with
  | nil =>
    simp only [List.countP_nil]
    exact List.sum_eq_zero (by
      intro n hn
      obtain ⟨f, _, he⟩ := List.mem_map.mp hn
      exact he.symm)
  | cons r l ih =>
    have hcov' : ∀ x ∈ l, fam x ∈ keys := fun x hx => hcov x (List.mem_cons_of_mem r hx)
    have hr : fam r ∈ keys := hcov r (List.mem_cons_self r l)
    simp only [List.countP_cons]
    rw [sum_map_add keys (fun f => l.countP fun x => (fam x == f) && P x)
      (fun f => if ((fam r == f) && P r) = true then 1 else 0)]
    rw [ih hcov']
    by_cases hP : P r = true
    · simp only [hP, Bool.and_true]
      rw [sum_indicator_one keys (fam r) hnd hr]
      simp
    · have hPf : P r = false := Bool.eq_false_iff.mpr hP
      have h0 : (keys.map fun f =>
          if ((fam r == f) && P r) = true then (1 : Nat) else 0).sum = 0 := by
        apply List.sum_eq_zero
        intro n hn
        obtain ⟨f, _, he⟩ := List.mem_map.mp hn
        rw [hPf] at he
        simpa using he.symm
      rw [h0, hPf]
      simp

theorem sum_count_eq_length (keys : List (List Char)) (l : List (List Char))
    (hnd : keys.Nodup) (hcov : ∀ x ∈ l, x ∈ keys) :
    (keys.map fun f => l.count f).sum = l.length := by
  have h := countP_fiber (fun x => x) (fun _ => true) keys l hnd hcov
  simp only [Bool.and_true] at h
  have h2 : l.countP (fun _ => true) = l.length := by simp
  rw [h2] at h
  rw [← h]
  rfl

/-- C9: the summary counts add up to the total record count, and for every
daily (resp. hourly) bucket key, the per-family counters of that bucket
add up to the overall counter: each record increments exactly one daily
and one hourly counter in both the overall series and its family's
series. -/
theorem claim9_count_consistency (rows : List LogRecord) :
    ((summaryOf rows).map Prod.snd).sum = rows.length
    ∧ (∀ k, ((famKeys rows).map fun f => famDailyCount rows f k).sum = dailyCount rows k)
    ∧ (∀ k, ((famKeys rows).map fun f => famHourlyCount rows f k).sum =
        hourlyCount rows k) := by
  obtain ⟨hN, hM, hC, _⟩ := famList_spec (famsOf rows)
  have hcov : ∀ r ∈ rows, famOf r ∈ famKeys rows := by
    intro r hr
    exact (hM (famOf r)).mpr (List.mem_map.mpr ⟨r, hr, rfl⟩)
  have hN' : (famKeys rows).Nodup := hN
  refine ⟨?_, ?_, ?_⟩
  · have h1 : ((summaryOf rows).map Prod.snd).sum =
        ((famList (famsOf rows)).map Prod.snd).sum :=
      ((sortCountDesc_perm _).map Prod.snd).sum_eq
    rw [h1]
    have h2 : (famList (famsOf rows)).map Prod.snd =
        (famKeys rows).map fun f => (famsOf rows).count f := by
      rw [famKeys, List.map_map]
      exact List.map_congr_left fun p hp => hC p hp
    rw [h2, sum_count_eq_length (famKeys rows) (famsOf rows) hN'
      (fun x hx => (hM x).mpr hx)]
    simp [famsOf]
  · intro k
    exact countP_fiber famOf (fun r => tsOk r && (dayKey r == k)) _ rows hN hcov
  · intro k
    exact countP_fiber famOf (fun r => tsOk r && (hourKey r == k)) _ rows hN hcov

/-- C9 witness: the summary counts of the concrete record stream add up to
its length. -/
theorem claim9_count_witness : ((summaryOf rows0).map Prod.snd).sum = rows0.length :=
  (claim9_count_consistency rows0).1

/-! ## Token scanner lemmas (C3, C10) -/

theorem unit_not_digit (c : Char) (h : isUnitC c = true) : isDigitC c = false := by
  rw [Bool.eq_false_iff]
  intro hc
  simp only [isUnitC, Bool.or_eq_true, beq_iff_eq] at h
  simp only [isDigitC, Bool.and_eq_true, decide_eq_true_eq] at hc
  omega

theorem unit_not_space (c : Char) (h : isUnitC c = true) : isPySpaceC c = false := by
  rw [Bool.eq_false_iff]
  intro hc
  simp only [isUnitC, Bool.or_eq_true, beq_iff_eq] at h
  simp only [isPySpaceC, Bool.or_eq_true, Bool.and_eq_true, beq_iff_eq,
    decide_eq_true_eq] at hc
  omega

theorem digit_not_space (c : Char) (h : isDigitC c = true) : isPySpaceC c = false := by
  rw [Bool.eq_false_iff]
  intro hc
  simp only [isDigitC, Bool.and_eq_true, decide_eq_true_eq] at h
  simp only [isPySpaceC, Bool.or_eq_true, Bool.and_eq_true, beq_iff_eq,
    decide_eq_true_eq] at hc
  omega

theorem digit_not_unit (c : Char) (h : isDigitC c = true) : isUnitC c = false := by
  rw [Bool.eq_false_iff]
  intro hc
  simp only [isDigitC, Bool.and_eq_true, decide_eq_true_eq] at h
  simp only [isUnitC, Bool.or_eq_true, beq_iff_eq] at hc
  omega

theorem space_not_digit (c : Char) (h : isPySpaceC c = true) : isDigitC c = false := by
  rw [Bool.eq_false_iff]
  intro hc
  exact absurd h (by rw [digit_not_space c hc]; simp)

theorem space_not_unit (c : Char) (h : isPySpaceC c = true) : isUnitC c = false := by
  rw [Bool.eq_false_iff]
  intro hc
  exact absurd h (by rw [unit_not_space c hc]; simp)

theorem tokGo_scan_cons (c : Char) (rest : List Char) :
    tokGo .scan (c :: rest) =
      if isDigitC c then tokGo (.dig [c]) rest else tokGo .scan rest := rfl

theorem tokGo_dig_cons (ds : List Char) (c : Char) (rest : List Char) :
    tokGo (.dig ds) (c :: rest) =
      if isDigitC c then tokGo (.dig (ds ++ [c])) rest
      else if isUnitC c then (digitsVal ds, c) :: tokGo .scan rest
      else if isPySpaceC c then tokGo (.sp ds) rest
      else tokGo .scan rest := rfl

theorem tokGo_sp_cons (ds : List Char) (c : Char) (rest : List Char) :
    tokGo (.sp ds) (c :: rest) =
      if isPySpaceC c then tokGo (.sp ds) rest
      else if isUnitC c then (digitsVal ds, c) :: tokGo .scan rest
      else if isDigitC c then tokGo (.dig [c]) rest
      else tokGo .scan rest := rfl

theorem digitChar_spec (m : Nat) (h : m < 10) :
    isDigitC (digitChar m) = true ∧ charVal (digitChar m) = m := by
  interval_cases m <;> exact ⟨by decide, by decide⟩

theorem digitsVal_append (l : List Char) (c : Char) :
    digitsVal (l ++ [c]) = 10 * digitsVal l + charVal c := by
  unfold digitsVal
  rw [List.foldl_append]
  simp [List.foldl]
  omega

theorem natDigitsGo_spec (fuel : Nat) : ∀ v : Nat, v < fuel →
    natDigitsGo fuel v ≠ []
    ∧ (∀ c ∈ natDigitsGo fuel v, isDigitC c = true)
    ∧ digitsVal (natDigitsGo fuel v) = v := by
  induction fuel with
  | zero => intro v hv; omega
  | succ fuel ih =>
    intro v hv
    by_cases h10 : v < 10
    · obtain ⟨hd, hval⟩ := digitChar_spec v h10
      refine ⟨by simp [natDigitsGo, h10], ?_, ?_⟩
      · intro c hc
        simp only [natDigitsGo, if_pos h10, List.mem_singleton] at hc
        rw [hc]
        exact hd
      · simp only [natDigitsGo, if_pos h10]
        unfold digitsVal
        simp [List.foldl, hval]
    · have hdiv : v / 10 < fuel := by
        have h1 : v / 10 < v := Nat.div_lt_self (by omega) (by omega)
        omega
      obtain ⟨hne, hdig, hval⟩ := ih (v / 10) hdiv
      have hm : v % 10 < 10 := Nat.mod_lt _ (by omega)
      obtain ⟨hd2, hval2⟩ := digitChar_spec (v % 10) hm
      refine ⟨?_, ?_, ?_⟩
      · simp [natDigitsGo, h10]
      · intro c hc
        simp only [natDigitsGo, if_neg h10] at hc
        rcases List.mem_append.mp hc with hc | hc
        · exact hdig c hc
        · rw [List.mem_singleton.mp hc]
          exact hd2
      · simp only [natDigitsGo, if_neg h10]
        rw [digitsVal_append, hval, hval2]
        omega

theorem natDigits_spec (v : Nat) :
    natDigits v ≠ []
    ∧ (∀ c ∈ natDigits v, isDigitC c = true)
    ∧ digitsVal (natDigits v) = v :=
  natDigitsGo_spec (v + 1) v (by omega)

theorem tokGo_dig_run (u : Char) (hu : isUnitC u = true) (r : List Char) :
    ∀ ds2 : List Char, (∀ c ∈ ds2, isDigitC c = true) → ∀ acc : List Char,
      tokGo (.dig acc) (ds2 ++ u :: r) =
        (digitsVal (acc ++ ds2), u) :: tokGo .scan r := by
  intro ds2
  induction ds2 with
  | nil =>
    intro _ acc
    rw [List.nil_append, tokGo_dig_cons, if_neg (by rw [unit_not_digit u hu]; simp),
      if_pos hu, List.append_nil]
  | cons d ds2 ih =>
    intro hdig acc
    have hd : isDigitC d = true := hdig d (List.mem_cons_self d ds2)
    rw [List.cons_append, tokGo_dig_cons, if_pos hd,
      ih (fun c hc => hdig c (List.mem_cons_of_mem d hc)) (acc ++ [d]),
      List.append_assoc]
    rfl

theorem render_cons_ne_nil (p : Nat × Char) (ts : List (Nat × Char)) :
    render (p :: ts) ≠ [] := by
  show natDigits p.1 ++ p.2 :: render ts ≠ []
  simp

theorem tokScan_render (ts : List (Nat × Char)) (hts : ∀ p ∈ ts, isUnitC p.2 = true) :
    tokScan (render ts) = ts := by
  induction ts with
  | nil => rfl
  | cons p ts ih =>
    obtain ⟨v, u⟩ := p
    have hu : isUnitC u = true := hts (v, u) (List.mem_cons_self _ ts)
    obtain ⟨hne, hdig, hval⟩ := natDigits_spec v
    obtain ⟨d, ds, hd⟩ : ∃ d ds, natDigits v = d :: ds := by
      cases hnd : natDigits v with
      | nil => exact absurd hnd hne
      | cons d ds => exact ⟨d, ds, rfl⟩
    have hdd : isDigitC d = true := hdig d (by rw [hd]; exact List.mem_cons_self d ds)
    have hdds : ∀ c ∈ ds, isDigitC c = true := fun c hc =>
      hdig c (by rw [hd]; exact List.mem_cons_of_mem d hc)
    show tokGo .scan (natDigits v ++ u :: render ts) = (v, u) :: ts
    rw [hd, List.cons_append, tokGo_scan_cons, if_pos hdd,
      tokGo_dig_run u hu (render ts) ds hdds [d]]
    have hv : digitsVal ([d] ++ ds) = v := by
      rw [show ([d] ++ ds : List Char) = d :: ds from rfl, ← hd]
      exact hval
    rw [hv]
    exact congrArg (fun l => (v, u) :: l)
      (ih fun q hq => hts q (List.mem_cons_of_mem _ hq))

theorem dropWhile_id_of_false (p : Char → Bool) (l : List Char)
    (h : ∀ c ∈ l, p c = false) : l.dropWhile p = l := by
  cases l with
  | nil => rfl
  | cons c cs =>
    rw [List.dropWhile_cons, h c (List.mem_cons_self c cs)]
    simp

theorem pyStrip_of_no_space (l : List Char) (h : ∀ c ∈ l, isPySpaceC c = false) :
    pyStrip l = l := by
  unfold pyStrip
  rw [dropWhile_id_of_false _ _ h,
    dropWhile_id_of_false _ _ (fun c hc => h c (List.mem_reverse.mp hc)),
    List.reverse_reverse]

theorem map_id_of_fix (f : Char → Char) (l : List Char) (h : ∀ c ∈ l, f c = c) :
    l.map f = l := by
  induction l with
  | nil => rfl
  | cons c cs ih =>
    rw [List.map_cons, h c (List.mem_cons_self c cs),
      ih (fun x hx => h x (List.mem_cons_of_mem c hx))]

theorem charLowerC_fix (c : Char) (h : isDigitC c = true ∨ isUnitC c = true) :
    charLowerC c = c := by
  unfold charLowerC
  rcases h with h | h
  · simp only [isDigitC, Bool.and_eq_true, decide_eq_true_eq] at h
    rw [if_neg]
    simp only [Bool.and_eq_true, decide_eq_true_eq, not_and]
    omega
  · simp only [isUnitC, Bool.or_eq_true, beq_iff_eq] at h
    rw [if_neg]
    simp only [Bool.and_eq_true, decide_eq_true_eq, not_and]
    omega

theorem render_chars (ts : List (Nat × Char)) (hts : ∀ p ∈ ts, isUnitC p.2 = true) :
    ∀ c ∈ render ts, isDigitC c = true ∨ isUnitC c = true := by
  induction ts with
  | nil => intro c hc; cases hc
  | cons p ts ih =>
    intro c hc
    rcases List.mem_append.mp hc with hc | hc
    · exact Or.inl ((natDigits_spec p.1).2.1 c hc)
    · rcases List.mem_cons.mp hc with rfl | hc'
      · exact Or.inr (hts p (List.mem_cons_self p ts))
      · exact ih (fun q hq => hts q (List.mem_cons_of_mem p hq)) c hc'

theorem canon_render (ts : List (Nat × Char)) (hts : ∀ p ∈ ts, isUnitC p.2 = true) :
    canonExpr (render ts) = render ts := by
  unfold canonExpr
  rw [pyStrip_of_no_space _ (fun c hc => by
    rcases render_chars ts hts c hc with h | h
    · exact digit_not_space c h
    · exact unit_not_space c h)]
  exact map_id_of_fix _ _ (fun c hc => charLowerC_fix c (render_chars ts hts c hc))

theorem render_zero_of_lit (ts : List (Nat × Char))
    (h : render ts = "now".data ∨ render ts = "0".data ∨ render ts = "0h".data ∨
      render ts = "0m".data ∨ render ts = "0s".data) :
    sumTok ts = 0 := by
  cases ts with
  | nil => rfl
  | cons p ts' =>
    obtain ⟨v, u⟩ := p
    obtain ⟨hne, hdig, hval⟩ := natDigits_spec v
    obtain ⟨d, ds, hd⟩ : ∃ d ds, natDigits v = d :: ds := by
      cases hnd : natDigits v with
      | nil => exact absurd hnd hne
      | cons d ds => exact ⟨d, ds, rfl⟩
    have hdd : isDigitC d = true := hdig d (by rw [hd]; exact List.mem_cons_self d ds)
    have hre : render ((v, u) :: ts') = d :: (ds ++ u :: render ts') := by
      show natDigits v ++ u :: render ts' = _
      rw [hd]
      rfl
    rw [hre] at h
    have htwo : d = '0' → ∀ x : Char, ds ++ u :: render ts' = [x] → v = 0 ∧ ts' = [] := by
      intro hd0 x hx
      cases ds with
      | nil =>
        rw [List.nil_append] at hx
        injection hx with h3 h4
        have hts' : ts' = [] := by
          cases ts' with
          | nil => rfl
          | cons q ts'' => exact absurd h4 (render_cons_ne_nil q ts'')
        refine ⟨?_, hts'⟩
        rw [hd, hd0] at hval
        have hz : digitsVal ['0'] = 0 := by decide
        omega
      | cons e ds' =>
        rw [List.cons_append] at hx
        injection hx with h3 h4
        rcases List.append_eq_nil.mp h4 with ⟨_, h5⟩
        exact absurd h5 (by simp)
    rcases h with h | h | h | h | h
    · -- "now": the head is a digit, 'n' is not
      rw [show ("now".data : List Char) = 'n' :: "ow".data from rfl] at h
      injection h with h1 _
      rw [h1] at hdd
      exact absurd hdd (by decide)
    · -- "0": the tail cannot be empty
      rw [show ("0".data : List Char) = ['0'] from rfl] at h
      injection h with h1 h2
      rcases List.append_eq_nil.mp h2 with ⟨_, h5⟩
      exact absurd h5 (by simp)
    · rw [show ("0h".data : List Char) = '0' :: ['h'] from rfl] at h
      injection h with h1 h2
      obtain ⟨hv, hts'⟩ := htwo h1 'h' h2
      rw [hv, hts']
      simp [sumTok]
    · rw [show ("0m".data : List Char) = '0' :: ['m'] from rfl] at h
      injection h with h1 h2
      obtain ⟨hv, hts'⟩ := htwo h1 'm' h2
      rw [hv, hts']
      simp [sumTok]
    · rw [show ("0s".data : List Char) = '0' :: ['s'] from rfl] at h
      injection h with h1 h2
      obtain ⟨hv, hts'⟩ := htwo h1 's' h2
      rw [hv, hts']
      simp [sumTok]

theorem parse_relative_delta_render (ts : List (Nat × Char))
    (hts : ∀ p ∈ ts, isUnitC p.2 = true) (hne : ts ≠ []) :
    parse_relative_delta (render ts) = .ok (sumTok ts) := by
  unfold parse_relative_delta
  rw [canon_render ts hts]
  by_cases hlit : render ts = "now".data ∨ render ts = "0".data ∨
      render ts = "0h".data ∨ render ts = "0m".data ∨ render ts = "0s".data
  · rw [if_pos hlit, render_zero_of_lit ts hlit]
  · rw [if_neg hlit, tokScan_render ts hts, if_neg hne]

/-! ## C3 -/

/-- C3: the relative-time grammar is commutative in token order: two valid
expressions made of the same multiset of `<integer><unit>` tokens parse to
the same duration, and each parses to the sum of its tokens' durations
(duplicate units add). -/
theorem claim3_token_order_commutes (ts1 ts2 : List (Nat × Char))
    (hval : ∀ p ∈ ts1, isUnitC p.2 = true) (hne : ts1 ≠ [])
    (hperm : ts1.Perm ts2) :
    parse_relative_delta (render ts1) = .ok (sumTok ts1)
    ∧ parse_relative_delta (render ts2) = parse_relative_delta (render ts1) := by
  have hval2 : ∀ p ∈ ts2, isUnitC p.2 = true := fun p hp =>
    hval p (hperm.mem_iff.mpr hp)
  have hne2 : ts2 ≠ [] := by
    intro h
    rw [h] at hperm
    exact hne hperm.eq_nil
  have hsum : sumTok ts2 = sumTok ts1 := by
    unfold sumTok
    exact (List.Perm.sum_eq (hperm.map _)).symm
  refine ⟨parse_relative_delta_render ts1 hval hne, ?_⟩
  rw [parse_relative_delta_render ts1 hval hne,
    parse_relative_delta_render ts2 hval2 hne2, hsum]

/-- C3 witness: `"1d2h"` and `"2h1d"` are renderings of permuted token
lists and parse to the same 93600 seconds. -/
theorem claim3_token_order_witness :
    parse_relative_delta ("1d2h".data) = .ok 93600
    ∧ parse_relative_delta ("2h1d".data) = parse_relative_delta ("1d2h".data) := by
  have h := claim3_token_order_commutes [(1, 'd'), (2, 'h')] [(2, 'h'), (1, 'd')]
    (by decide) (by decide) (by decide)
  have hr1 : render [(1, 'd'), (2, 'h')] = "1d2h".data := by decide
  have hr2 : render [(2, 'h'), (1, 'd')] = "2h1d".data := by decide
  have hsum : sumTok [(1, 'd'), (2, 'h')] = 93600 := by decide
  rw [hr1, hr2, hsum] at h
  exact h

/-! ## Token error characterization (C10) -/

theorem HasTokenSpec_extend (p t : List Char) (h : HasTokenSpec t) :
    HasTokenSpec (p ++ t) := by
  obtain ⟨pre, ds, ws, u, post, he, hds, hdig, hws, hu⟩ := h
  exact ⟨p ++ pre, ds, ws, u, post, by simp [he], hds, hdig, hws, hu⟩

theorem tokGo_ne_nil_hasToken (s : List Char) :
    (tokGo .scan s ≠ [] → HasTokenSpec s)
    ∧ (∀ ds, ds ≠ [] → (∀ c ∈ ds, isDigitC c = true) →
        tokGo (.dig ds) s ≠ [] → HasTokenSpec (ds ++ s))
    ∧ (∀ ds ws, ds ≠ [] → (∀ c ∈ ds, isDigitC c = true) →
        (∀ c ∈ ws, isPySpaceC c = true) →
        tokGo (.sp ds) s ≠ [] → HasTokenSpec (ds ++ ws ++ s)) := by
  induction s with
  | nil =>
    exact ⟨fun h => absurd rfl h, fun ds _ _ h => absurd rfl h,
      fun ds ws _ _ _ h => absurd rfl h⟩
  | cons c rest ih =>
    obtain ⟨ihA, ihB, ihC⟩ := ih
    refine ⟨?_, ?_, ?_⟩
    · intro h
      rw [tokGo_scan_cons] at h
      by_cases h1 : isDigitC c = true
      · rw [if_pos h1] at h
        have := ihB [c] (by simp) (by simp [h1]) h
        simpa using this
      · rw [if_neg h1] at h
        have := HasTokenSpec_extend [c] rest (ihA h)
        simpa using this
    · intro ds hds hdig h
      rw [tokGo_dig_cons] at h
      by_cases h1 : isDigitC c = true
      · rw [if_pos h1] at h
        have := ihB (ds ++ [c]) (by simp)
          (fun x hx => by
            rcases List.mem_append.mp hx with hx | hx
            · exact hdig x hx
            · rw [List.mem_singleton.mp hx]; exact h1) h
        simpa using this
      · rw [if_neg h1] at h
        by_cases h2 : isUnitC c = true
        · exact ⟨[], ds, [], c, rest, by simp, hds, hdig, by simp, h2⟩
        · rw [if_neg h2] at h
          by_cases h3 : isPySpaceC c = true
          · rw [if_pos h3] at h
            have := ihC ds [c] hds hdig (by simp [h3]) h
            simpa using this
          · rw [if_neg h3] at h
            have := HasTokenSpec_extend (ds ++ [c]) rest (ihA h)
            simpa using this
    · intro ds ws hds hdig hws h
      rw [tokGo_sp_cons] at h
      by_cases h1 : isPySpaceC c = true
      · rw [if_pos h1] at h
        have := ihC ds (ws ++ [c]) hds hdig
          (fun x hx => by
            rcases List.mem_append.mp hx with hx | hx
            · exact hws x hx
            · rw [List.mem_singleton.mp hx]; exact h1) h
        simpa using this
      · rw [if_neg h1] at h
        by_cases h2 : isUnitC c = true
        · exact ⟨[], ds, ws, c, rest, by simp, hds, hdig, hws, h2⟩
        · rw [if_neg h2] at h
          by_cases h3 : isDigitC c = true
          · rw [if_pos h3] at h
            have := ihB [c] (by simp) (by simp [h3]) h
            have h4 := HasTokenSpec_extend (ds ++ ws) ([c] ++ rest) this
            simpa using h4
          · rw [if_neg h3] at h
            have := HasTokenSpec_extend (ds ++ ws ++ [c]) rest (ihA h)
            simpa using this

theorem tokGo_step_ne (c : Char) (rest : List Char)
    (hrest : ∀ st, tokGo st rest ≠ []) : ∀ st, tokGo st (c :: rest) ≠ [] := by
  intro st
  cases st with
  | scan =>
    rw [tokGo_scan_cons]
    split
    · exact hrest _
    · exact hrest _
  | dig ds =>
    rw [tokGo_dig_cons]
    split
    · exact hrest _
    · split
      · simp
      · split
        · exact hrest _
        · exact hrest _
  | sp ds =>
    rw [tokGo_sp_cons]
    split
    · exact hrest _
    · split
      · simp
      · split
        · exact hrest _
        · exact hrest _

theorem tokGo_digsp_finds (ws : List Char) (hws : ∀ c ∈ ws, isPySpaceC c = true)
    (u : Char) (hu : isUnitC u = true) (post : List Char) :
    ∀ ds, tokGo (.dig ds) (ws ++ u :: post) ≠ []
      ∧ tokGo (.sp ds) (ws ++ u :: post) ≠ [] := by
  induction ws with
  | nil =>
    intro ds
    constructor
    · rw [List.nil_append, tokGo_dig_cons,
        if_neg (by rw [unit_not_digit u hu]; simp), if_pos hu]
      simp
    · rw [List.nil_append, tokGo_sp_cons,
        if_neg (by rw [unit_not_space u hu]; simp), if_pos hu]
      simp
  | cons w ws ih =>
    intro ds
    have hw : isPySpaceC w = true := hws w (List.mem_cons_self w ws)
    have ih' := ih (fun x hx => hws x (List.mem_cons_of_mem w hx))
    constructor
    · rw [List.cons_append, tokGo_dig_cons,
        if_neg (by rw [space_not_digit w hw]; simp),
        if_neg (by rw [space_not_unit w hw]; simp), if_pos hw]
      exact (ih' ds).2
    · rw [List.cons_append, tokGo_sp_cons, if_pos hw]
      exact (ih' ds).2

theorem hasToken_tokGo_ne_nil (s : List Char) (hT : HasTokenSpec s) :
    ∀ st, tokGo st s ≠ [] := by
  induction s with
  | nil =>
    exfalso
    obtain ⟨pre, ds, ws, u, post, he, hds, _, _, _⟩ := hT
    have hlen := congrArg List.length he
    simp [List.length_append] at hlen
    omega
  | cons c rest ih =>
    intro st
    obtain ⟨pre, ds, ws, u, post, he, hds, hdig, hws, hu⟩ := hT
    cases pre with
    | cons p pre' =>
      rw [List.cons_append] at he
      injection he with _ h1
      have hrest : HasTokenSpec rest := ⟨pre', ds, ws, u, post, h1, hds, hdig, hws, hu⟩
      exact tokGo_step_ne c rest (ih hrest) st
    | nil =>
      rw [List.nil_append] at he
      cases ds with
      | nil => exact absurd rfl hds
      | cons d ds' =>
        rw [List.cons_append] at he
        injection he with hcd hrest_eq
        have hcdig : isDigitC c = true := by
          rw [hcd]
          exact hdig d (List.mem_cons_self d ds')
        cases ds' with
        | nil =>
          rw [List.nil_append] at hrest_eq
          subst hrest_eq
          have hfind := tokGo_digsp_finds ws hws u hu post
          cases st with
          | scan =>
            rw [tokGo_scan_cons, if_pos hcdig]
            exact (hfind [c]).1
          | dig ds0 =>
            rw [tokGo_dig_cons, if_pos hcdig]
            exact (hfind (ds0 ++ [c])).1
          | sp ds0 =>
            rw [tokGo_sp_cons, if_neg (by rw [digit_not_space c hcdig]; simp),
              if_neg (by rw [digit_not_unit c hcdig]; simp), if_pos hcdig]
            exact (hfind [c]).1
        | cons d2 ds'' =>
          have hrest : HasTokenSpec rest := by
            refine ⟨[], d2 :: ds'', ws, u, post, by rw [hrest_eq]; simp, by simp,
              ?_, hws, hu⟩
            intro x hx
            exact hdig x (List.mem_cons_of_mem d hx)
          exact tokGo_step_ne c rest (ih hrest) st

theorem tokScan_eq_nil_iff (s : List Char) : tokScan s = [] ↔ ¬ HasTokenSpec s := by
  constructor
  · intro h hT
    exact hasToken_tokGo_ne_nil s hT .scan h
  · intro hn
    by_contra hne
    exact hn ((tokGo_ne_nil_hasToken s).1 hne)

/-! ## C10 -/

/-- C10: `parse_relative_delta` fails exactly when the stripped, lowered
input is not a zero literal and contains no `<digits><unit>` token
(in the declarative sense of `HasTokenSpec`); when a token is present the
parse succeeds with the sum of the scanned tokens, every other character
being ignored — e.g. `"1dxyz"` is one day and `"5x3h"` is three hours. -/
theorem claim10_error_characterization :
    (∀ e : List Char, (∃ msg, parse_relative_delta e = .error msg) ↔
      (¬ isZeroLit (canonExpr e) ∧ ¬ HasTokenSpec (canonExpr e)))
    ∧ (∀ e : List Char, HasTokenSpec (canonExpr e) →
        parse_relative_delta e = .ok (sumTok (tokScan (canonExpr e))))
    ∧ parse_relative_delta ("1dxyz".data) = .ok 86400
    ∧ parse_relative_delta ("5x3h".data) = .ok 10800 := by
  have hstep : ∀ e : List Char, ¬ isZeroLit (canonExpr e) →
      HasTokenSpec (canonExpr e) →
      parse_relative_delta e = .ok (sumTok (tokScan (canonExpr e))) := by
    intro e hlit hT
    have htk : tokScan (canonExpr e) ≠ [] := by
      intro h
      exact (tokScan_eq_nil_iff _).mp h hT
    have hlit' : ¬ (canonExpr e = "now".data ∨ canonExpr e = "0".data ∨
        canonExpr e = "0h".data ∨ canonExpr e = "0m".data ∨
        canonExpr e = "0s".data) := hlit
    unfold parse_relative_delta
    rw [if_neg hlit', if_neg htk]
  refine ⟨?_, ?_, by decide, by decide⟩
  · intro e
    constructor
    · rintro ⟨msg, hm⟩
      by_cases hlit : isZeroLit (canonExpr e)
      · have hlit' : canonExpr e = "now".data ∨ canonExpr e = "0".data ∨
            canonExpr e = "0h".data ∨ canonExpr e = "0m".data ∨
            canonExpr e = "0s".data := hlit
        rw [show parse_relative_delta e = .ok 0 from by
          unfold parse_relative_delta; rw [if_pos hlit']] at hm
        exact Except.noConfusion hm
      · refine ⟨hlit, ?_⟩
        intro hT
        rw [hstep e hlit hT] at hm
        exact Except.noConfusion hm
    · rintro ⟨hlit, hT⟩
      have htk : tokScan (canonExpr e) = [] := (tokScan_eq_nil_iff _).mpr hT
      have hlit' : ¬ (canonExpr e = "now".data ∨ canonExpr e = "0".data ∨
          canonExpr e = "0h".data ∨ canonExpr e = "0m".data ∨
          canonExpr e = "0s".data) := hlit
      refine ⟨"Invalid relative time expression".data, ?_⟩
      unfold parse_relative_delta
      rw [if_neg hlit', if_pos htk]
  · intro e hT
    by_cases hlit : isZeroLit (canonExpr e)
    · have hlit' : canonExpr e = "now".data ∨ canonExpr e = "0".data ∨
          canonExpr e = "0h".data ∨ canonExpr e = "0m".data ∨
          canonExpr e = "0s".data := hlit
      have hp : parse_relative_delta e = .ok 0 := by
        unfold parse_relative_delta
        rw [if_pos hlit']
      rw [hp]
      rcases hlit with h | h | h | h | h <;> rw [h] at hT ⊢
      · exact absurd hT (by
          intro hc
          have := hasToken_tokGo_ne_nil _ hc .scan
          exact this (by decide))
      · exact absurd hT (by
          intro hc
          have := hasToken_tokGo_ne_nil _ hc .scan
          exact this (by decide))
      · decide
      · decide
      · decide
    · exact hstep e hlit hT

/-- C10 witness: the characterization applied to the tokenless input
`"xyz"` and the token-bearing input `"1dxyz"`. -/
theorem claim10_error_witness :
    (∃ msg, parse_relative_delta ("xyz".data) = .error msg)
    ∧ parse_relative_delta ("1dxyz".data) = .ok 86400 := by
  refine ⟨?_, claim10_error_characterization.2.2.1⟩
  apply (claim10_error_characterization.1 ("xyz".data)).mpr
  constructor
  · show ¬ (canonExpr ("xyz".data) = "now".data ∨ canonExpr ("xyz".data) = "0".data ∨
      canonExpr ("xyz".data) = "0h".data ∨ canonExpr ("xyz".data) = "0m".data ∨
      canonExpr ("xyz".data) = "0s".data)
    decide
  · intro hT
    exact hasToken_tokGo_ne_nil _ hT .scan (by decide)
